import Mathlib

/-!
Verification of the MeshX code-generation scripts
(`app/scripts/code_gen.py`, `app/scripts/parse_sdkconfig.py`).

The Python data model is embedded shallowly:

* a JSON `macro` object `{def, value}` is flattened into the `mdef` /
  `mvalue` fields of `ElementDef` (the word `def` is a Lean keyword);
* a macro value is either a boolean or an integer (`MVal`);
* Python dictionaries used as accumulators (`self.deps`, `config_dict`)
  become association lists with Python-dict update semantics: an update
  of an existing key replaces the stored value in place, a new key is
  appended at the end;
* the recursive procedure `CodeGen.__resolve_dep_create_yml_dict` is
  embedded as a fuel-indexed function family (`resolve_dep`,
  `resolve_dep_scan`, `resolve_dep_list`); the fuel only bounds the
  recursion depth of the Python call stack, all loop structure is
  modelled exactly (`resolve_dep_scan` walks the element catalog by
  index, as the Python `for _idx, dep in enumerate(...)` loop does,
  reading the current, possibly already mutated, catalog).
-/

namespace MeshX

/-- A macro value from the profile document: JSON booleans and integers,
mirroring the `isinstance(dep['macro']['value'], bool)` distinction made
by `__resolve_dep_create_yml_dict`. -/
inductive MVal where
  | b (v : Bool)
  | i (v : Int)
deriving DecidableEq

/-- A global element-catalog entry of `prod_profile['elements']`:
`{name, path, macro: {def, value}, deps}` with the macro flattened into
`mdef`/`mvalue`. -/
structure ElementDef where
  name : String
  path : String
  mdef : String
  mvalue : MVal
  deps : List String
deriving DecidableEq

/-- A per-product element reference `{name, value}` from
`product['elements']`. -/
structure ElementRef where
  name : String
  value : Int
deriving DecidableEq

/-- A product record `{name, pid, elements}` of
`prod_profile['prod']['products']`. -/
structure Product where
  name : String
  pid : Int
  elements : List ElementRef
deriving DecidableEq

/-- The loaded profile document: `prod.cid`, `prod.products` and the
global element catalog `elements`. -/
structure Profile where
  cid : Int
  products : List Product
  elements : List ElementDef
deriving DecidableEq

deriving instance DecidableEq for Except

/-- `CodeGen.__find_prod_from_target`: iterates over the whole product
list and overwrites `self.product` at every name match (the Python loop
has no `break`), then raises `CodeGenException("Product Not Found")`
when no match was seen. -/
def find_prod_from_target (products : List Product) (target : String) :
    Except String Product :=
  match products.foldl
      (fun acc p => if p.name = target then some p else acc) none with
  | some p => Except.ok p
  | none => Except.error "Product Not Found"

/-- `"\n#define {} {}".format(n, v)` from `CodeGen.define_fmt`. -/
def define_fmt (n v : String) : String :=
  "\n#define " ++ n ++ " " ++ v

/-- Python string slicing `s[:n]`: the first `n` characters. -/
def strTake (s : String) (n : Nat) : String :=
  ⟨s.data.take n⟩

/-- The running recomputation of `self.max_el` inside
`CodeGen.get_common_defs`: `max_el = 1`, then `max_el += element['value']`
for each direct element of the product. -/
def get_max_el (p : Product) : Int :=
  p.elements.foldl (fun acc e => acc + e.value) 1

/-- `CodeGen.get_common_defs`: appends the four product-level
`#define` lines to the accumulated output text `acc`
(`self.file_insert`).  The product is always non-`None` here because
construction raised otherwise. -/
def get_common_defs (cid pid : Int) (target : String) (p : Product)
    (acc : String) : String :=
  acc ++ define_fmt "CONFIG_CID_ID" (toString cid)
      ++ define_fmt "CONFIG_PID_ID" (toString pid)
      ++ define_fmt "CONFIG_PRODUCT_NAME" ("\"" ++ strTake target 16 ++ "\"")
      ++ define_fmt "CONFIG_MAX_ELEMENT_COUNT" (toString (get_max_el p))

/-- Python `int()` applied to a macro value: `int(True) = 1`,
`int(False) = 0`, integers unchanged. -/
def mvalInt : MVal → Int
  | .b bv => if bv then 1 else 0
  | .i v => v

/-- `CodeGen.get_el_macro`: appends one `#define` line per entry of the
full element catalog `self.prod_profile['elements']`, in catalog order,
coercing the macro value through `int()`. -/
def get_el_macro (els : List ElementDef) (acc : String) : String :=
  els.foldl (fun a e => a ++ define_fmt e.mdef (toString (mvalInt e.mvalue))) acc

/-- Specification-side description of the catalog section of the macro
file: the concatenation, in declared catalog order, of one
`#define <mdef> <int(mvalue)>` line per entry. -/
def catalogDefines : List ElementDef → String
  | [] => ""
  | e :: es => define_fmt e.mdef (toString (mvalInt e.mvalue)) ++ catalogDefines es

/-- The order in which `__main__` assembles the macro text: the fixed
preamble/accumulator, then `get_common_defs`, then `get_el_macro` over
the (by then mutated) catalog. -/
def gen_macro_text (cid pid : Int) (target : String) (p : Product)
    (els : List ElementDef) (preamble : String) : String :=
  get_el_macro els (get_common_defs cid pid target p preamble)

/-- The mutable state threaded through dependency expansion: the element
catalog `self.prod_profile['elements']` (whose macro values are mutated
in place) and the dependency map `self.deps` (element name to package
path, i.e. the `{'path': ...}` records). -/
structure St where
  elements : List ElementDef
  deps : List (String × String)
deriving DecidableEq

/-- Python-dict update `self.deps[k] = {'path': v}`: replace in place
when the key exists, append otherwise. -/
def setDep (m : List (String × String)) (k v : String) :
    List (String × String) :=
  if m.any (fun p => p.1 = k) then
    m.map (fun p => if p.1 = k then (k, v) else p)
  else m ++ [(k, v)]

/-- The macro-value write performed on a matched catalog entry:
`True` when the existing value is boolean-typed, the caller-supplied
integer otherwise. -/
def applyWrite (cur : MVal) (w : Int) : MVal :=
  match cur with
  | .b _ => .b true
  | .i _ => .i w

/-- The in-place update of a matched `ElementDef`'s macro value. -/
def updVal (e : ElementDef) (w : Int) : ElementDef :=
  { e with mvalue := applyWrite e.mvalue w }

mutual

/-- `CodeGen.__resolve_dep_create_yml_dict(dep_s, value)`, fuel-indexed:
one fuel unit is consumed per Python call-stack frame; `none` means the
fuel (stack) was exhausted.  A call scans the whole current element
catalog by index. -/
def resolve_dep (fuel : Nat) (st : St) (dep_s : String) (value : Int) :
    Option St :=
  match fuel with
  | 0 => none
  | f + 1 => resolve_dep_scan f st dep_s value 0 st.elements.length
termination_by (fuel, 0, 0)

/-- The `for _idx, dep in enumerate(self.prod_profile['elements'])` loop
body: `idx` is the current index, `n` the number of indices still to
visit.  On a name match the dependency map and the macro value are
updated and each sub-dependency is visited before the scan continues on
the updated state. -/
def resolve_dep_scan (fuel : Nat) (st : St) (dep_s : String) (value : Int)
    (idx n : Nat) : Option St :=
  match n with
  | 0 => some st
  | n' + 1 =>
    match st.elements[idx]? with
    | none => some st
    | some e =>
      if e.name = dep_s then
        match resolve_dep_list fuel
            ⟨st.elements.set idx (updVal e value),
             setDep st.deps dep_s e.path⟩ e.deps with
        | none => none
        | some st2 => resolve_dep_scan fuel st2 dep_s value (idx + 1) n'
      else resolve_dep_scan fuel st dep_s value (idx + 1) n'
termination_by (fuel, 2, n)

/-- The `for sub_dep in dep['deps']` loop: every sub-dependency is
visited recursively with value `0` (the Python default argument). -/
def resolve_dep_list (fuel : Nat) (st : St) (ds : List String) : Option St :=
  match ds with
  | [] => some st
  | d :: ds' =>
    match resolve_dep fuel st d 0 with
    | none => none
    | some st' => resolve_dep_list fuel st' ds'
termination_by (fuel, 1, ds.length)

end

/-- `CodeGen.resolve_el_deps`: visit every direct element reference of
the product, in declared order, with its declared value. -/
def resolve_el_deps (fuel : Nat) (st : St) : List ElementRef → Option St
  | [] => some st
  | r :: rs =>
    match resolve_dep fuel st r.name r.value with
    | none => none
    | some st' => resolve_el_deps fuel st' rs

/-! ### Instrumented twin of the expansion

`resolve_dep_tr` is `resolve_dep` extended with a ghost log recording,
in chronological order, every macro-value write as a pair
`(catalog index, caller-supplied value)`.  The log materialises the
visitation order of the depth-first expansion so that the
last-write-wins property can be stated. -/

mutual

/-- `resolve_dep` with a write log. -/
def resolve_dep_tr (fuel : Nat) (st : St) (dep_s : String) (value : Int) :
    Option (St × List (Nat × Int)) :=
  match fuel with
  | 0 => none
  | f + 1 => resolve_dep_scan_tr f st dep_s value 0 st.elements.length
termination_by (fuel, 0, 0)

/-- `resolve_dep_scan` with a write log. -/
def resolve_dep_scan_tr (fuel : Nat) (st : St) (dep_s : String) (value : Int)
    (idx n : Nat) : Option (St × List (Nat × Int)) :=
  match n with
  | 0 => some (st, [])
  | n' + 1 =>
    match st.elements[idx]? with
    | none => some (st, [])
    | some e =>
      if e.name = dep_s then
        match resolve_dep_list_tr fuel
            ⟨st.elements.set idx (updVal e value),
             setDep st.deps dep_s e.path⟩ e.deps with
        | none => none
        | some r2 =>
          match resolve_dep_scan_tr fuel r2.1 dep_s value (idx + 1) n' with
          | none => none
          | some r3 => some (r3.1, (idx, value) :: (r2.2 ++ r3.2))
      else resolve_dep_scan_tr fuel st dep_s value (idx + 1) n'
termination_by (fuel, 2, n)

/-- `resolve_dep_list` with a write log. -/
def resolve_dep_list_tr (fuel : Nat) (st : St) (ds : List String) :
    Option (St × List (Nat × Int)) :=
  match ds with
  | [] => some (st, [])
  | d :: ds' =>
    match resolve_dep_tr fuel st d 0 with
    | none => none
    | some r1 =>
      match resolve_dep_list_tr fuel r1.1 ds' with
      | none => none
      | some r2 => some (r2.1, r1.2 ++ r2.2)
termination_by (fuel, 1, ds.length)

end

/-- `resolve_el_deps` with a write log. -/
def resolve_el_deps_tr (fuel : Nat) (st : St) :
    List ElementRef → Option (St × List (Nat × Int))
  | [] => some (st, [])
  | r :: rs =>
    match resolve_dep_tr fuel st r.name r.value with
    | none => none
    | some r1 =>
      match resolve_el_deps_tr fuel r1.1 rs with
      | none => none
      | some r2 => some (r2.1, r1.2 ++ r2.2)

/-- The last write recorded for catalog index `i`. -/
def lastWriteTo (log : List (Nat × Int)) (i : Nat) : Option Int :=
  ((log.filter (fun p => p.1 = i)).getLast?).map (fun p => p.2)

/-- Replay of the logged writes against one macro value. -/
def applyLog (cur : MVal) (log : List (Nat × Int)) (i : Nat) : MVal :=
  log.foldl (fun c p => if p.1 = i then applyWrite c p.2 else c) cur

/-- Replay of the logged writes against one catalog entry. -/
def logUpd (log : List (Nat × Int)) (i : Nat) (e : ElementDef) : ElementDef :=
  { e with mvalue := applyLog e.mvalue log i }

/-- The immutable part of a catalog entry: everything except the macro
value.  Dependency expansion only ever rewrites macro values, so this
projection is invariant under expansion. -/
def eShape (e : ElementDef) : String × String × String × List String :=
  (e.name, e.path, e.mdef, e.deps)

/-- The immutable skeleton of the expansion state. -/
def shape (st : St) : List (String × String × String × List String) :=
  st.elements.map eShape

/-- A rank function witnessing acyclicity of the element dependency
graph: every dependency edge strictly decreases the rank.  A finite
graph admits such a function exactly when it has no directed cycle. -/
@[reducible] def RankOK (rk : String → Nat) (els : List ElementDef) : Prop :=
  ∀ e ∈ els, ∀ d ∈ e.deps, rk d < rk e.name

/-! ### Filesystem effects of `CodeGen.__init__` -/

/-- A filesystem effect performed by the scripts. -/
inductive FsEff where
  | readFile (path : String)
  | touch (path : String)
  | writeFile (path : String)
deriving DecidableEq

/-- Whether an effect is a pure read (no file created or modified). -/
def FsEff.isRead : FsEff → Bool
  | .readFile _ => true
  | _ => false

/-- No effect of the list creates or modifies a file on disk. -/
def noFileMutation (effs : List FsEff) : Bool :=
  effs.all FsEff.isRead

/-- The profile-load step alone (`with open(prod_profile) as pj:
json.load(pj)`): a single file read. -/
def profile_load_effects (prod_profile : String) : List FsEff :=
  [.readFile prod_profile]

/-- The filesystem effects of `CodeGen.__init__` on its success path, in
order: the profile document is read, then `os.system(f'touch
{self.genfile_h}')` creates (or updates the timestamp of) the generated
header. -/
def codegen_init_effects (prod_profile genfile_h : String) : List FsEff :=
  [.readFile prod_profile, .touch genfile_h]

/-- The default profile path of `CodeGen.__init__`. -/
def default_prod_profile : String := "scripts/prod_profile.json"

/-- `self.genfile_h` as set by `CodeGen.__init__`. -/
def genfile_h : String := "prod_common/common/codegen.h"

/-! ### `parse_sdkconfig.py` -/

/-- A value stored in the parsed configuration dictionary. -/
inductive PyVal where
  | b (v : Bool)
  | i (v : Int)
  | s (v : String)
deriving DecidableEq

/-- The characters stripped by Python's `str.strip()` (ASCII range). -/
def isPySpace (c : Char) : Bool :=
  c = ' ' || c = '\t' || c = '\n' || c = '\r' || c = '\x0b' || c = '\x0c'

/-- Python `str.strip()` on ASCII text: drop leading and trailing
whitespace. -/
def pyStrip (s : String) : String :=
  ⟨((s.data.dropWhile isPySpace).reverse.dropWhile isPySpace).reverse⟩

/-- A character of the regex class `[A-Za-z0-9_]`. -/
def isWordChar (c : Char) : Bool :=
  c.isAlphanum || c = '_'

/-- The regex match
`re.match(r"^([A-Za-z0-9_]+)\s*=\s*(.*)$", line)` on an already
stripped line: a non-empty run of word characters, optional whitespace,
a literal `=`, optional whitespace, and the remainder as group 2. -/
def matchKeyValue (l : List Char) : Option (String × String) :=
  let key := l.takeWhile isWordChar
  if key.isEmpty then none
  else
    match (l.dropWhile isWordChar).dropWhile isPySpace with
    | '=' :: tail => some (⟨key⟩, ⟨tail.dropWhile isPySpace⟩)
    | _ => none

/-- One decimal digit's contribution, folding left. -/
def digitsVal (l : List Char) : Nat :=
  l.foldl (fun a c => a * 10 + (c.toNat - '0'.toNat)) 0

/-- After the first digit, Python's `int()` grammar allows digits with
single underscores strictly between digits. -/
def pyDigitsRest : List Char → Bool
  | [] => true
  | '_' :: c :: rest => c.isDigit && pyDigitsRest rest
  | '_' :: [] => false
  | c :: rest => c.isDigit && pyDigitsRest rest

/-- An unsigned decimal literal accepted by Python's `int()` (ASCII):
a digit followed by digits and single interior underscores. -/
def pyNat? (l : List Char) : Option Nat :=
  match l with
  | [] => none
  | c :: rest =>
    if c.isDigit && pyDigitsRest rest then
      some (digitsVal (l.filter (fun ch => ch ≠ '_')))
    else none

/-- Python `int(s)` on an already stripped ASCII string: an optional
sign followed by an unsigned literal; `none` models `ValueError`. -/
def pyInt? (s : String) : Option Int :=
  match s.data with
  | '+' :: rest => (pyNat? rest).map Int.ofNat
  | '-' :: rest => (pyNat? rest).map (fun n => -(n : Int))
  | l => (pyNat? l).map Int.ofNat

/-- The per-line processing of `parse_sdkconfig`: strip, skip blank and
`#` lines, match `KEY=value`, strip the value and coerce it
(`'y'`/`'n'` to booleans, else integer if `int()` succeeds, else the
string).  Lines that match nothing only produce a warning print and no
entry. -/
def parseLine (line : String) : Option (String × PyVal) :=
  let l := pyStrip line
  if l.data.isEmpty then none
  else if l.data.head? = some '#' then none
  else
    match matchKeyValue l.data with
    | none => none
    | some (key, rawVal) =>
      let v := pyStrip rawVal
      let pv : PyVal :=
        if v = "y" then .b true
        else if v = "n" then .b false
        else
          match pyInt? v with
          | some n => .i n
          | none => .s v
      some (key, pv)

/-- Python-dict assignment `config_dict[key] = value`: replace in place
when the key exists, append otherwise. -/
def dictSet (d : List (String × PyVal)) (k : String) (v : PyVal) :
    List (String × PyVal) :=
  if d.any (fun p => p.1 = k) then
    d.map (fun p => if p.1 = k then (k, v) else p)
  else d ++ [(k, v)]

/-- Dictionary lookup. -/
def dictGet (d : List (String × PyVal)) (k : String) : Option PyVal :=
  (d.find? (fun p => p.1 = k)).map (fun p => p.2)

/-- `parse_sdkconfig(file_path)` on the file's lines: fold every line
through `parseLine`, assigning each produced key/value pair into the
accumulated dictionary. -/
def parse_sdkconfig (lines : List String) : List (String × PyVal) :=
  lines.foldl
    (fun d line =>
      match parseLine line with
      | none => d
      | some kv => dictSet d kv.1 kv.2) []

/-- Specification-side description of the parsed dictionary: the value
bound to a key is the one produced by the last line that parses to that
key. -/
def lastParsedValue (lines : List String) (k : String) : Option PyVal :=
  (((lines.filterMap parseLine).filter (fun p => p.1 = k)).getLast?).map
    (fun p => p.2)

/-! ### Concrete inputs used by counterexamples and witnesses -/

/-- A product named `A` with pid 1. -/
def prodA1 : Product := ⟨"A", 1, []⟩

/-- A second product also named `A`, with pid 2. -/
def prodA2 : Product := ⟨"A", 2, []⟩

/-- Catalog entry `A`: boolean-flag element depending on `X`. -/
def elemA : ElementDef := ⟨"A", "p/A", "CONFIG_A", .b false, ["X"]⟩

/-- Catalog entry `X`: integer-valued element with no dependencies. -/
def elemX : ElementDef := ⟨"X", "p/X", "CONFIG_X", .i 0, []⟩

/-- The diamond-shaped example state: `A` depends on `X` and the
product references both directly. -/
def diamondSt : St := ⟨[elemA, elemX], []⟩

/-- A self-referential catalog (element `X` depends on itself)
parametrised by the mutable parts of the state. -/
def cyclicStM (m : MVal) (d : List (String × String)) : St :=
  ⟨[⟨"X", "p/X", "CONFIG_X", m, ["X"]⟩], d⟩

/-- The cyclic example state. -/
def cyclicSt : St := cyclicStM (.i 0) []

/-- An acyclic two-element state used to witness termination. -/
def acyclicSt : St := ⟨[elemA, elemX], []⟩

/-- A rank function for `acyclicSt`: `A` above `X`. -/
def rankW (s : String) : Nat := if s = "A" then 1 else 0

/-- A product used to witness termination of the expansion. -/
def prodW : Product := ⟨"W", 3, [⟨"A", 1⟩, ⟨"X", 5⟩]⟩

/-- The state after expanding the diamond product over `diamondSt`. -/
def diamondStOut : St :=
  ⟨[{ elemA with mvalue := .b true }, { elemX with mvalue := .i 5 }],
   [("A", "p/A"), ("X", "p/X")]⟩

/-- The write log of that expansion: `A` written once, `X` written twice
(first with `0` through the dependency edge of `A`, then with `5` as a
direct product element). -/
def diamondLog : List (Nat × Int) := [(0, 1), (1, 0), (1, 5)]

/-! ## Theorems -/

/-! ### General helper lemmas -/

theorem getLast?_cons_orElse {α : Type} (x : α) (l : List α) :
    (x :: l).getLast? = (l.getLast? <|> some x) := by
  rw [List.getLast?_cons]
  cases l.getLast? <;> rfl

theorem foldl_overwrite (l : List Product) (t : String) (a : Option Product) :
    l.foldl (fun acc p => if p.name = t then some p else acc) a
      = ((l.filter (fun p => p.name = t)).getLast? <|> a) := by
  induction l generalizing a with
  | nil => simp
  | cons p l ih =>
    rw [List.foldl_cons, ih, List.filter_cons]
    by_cases h : p.name = t
    · simp only [h, decide_True, if_true, getLast?_cons_orElse]
      cases (l.filter (fun p => p.name = t)).getLast? <;> rfl
    · simp [h]

/-! ### C2: product resolution -/

/-- **C2** (amended): `__find_prod_from_target` scans the whole product
list without breaking, so when at least one product carries the target
name it returns the *last* such product (for profiles with unique
product names this coincides with the first and only match), and when
none does it fails with `CodeGenException("Product Not Found")`. -/
theorem find_prod_returns_last_match (ps : List Product) (t : String) :
    find_prod_from_target ps t =
      match (ps.filter (fun p => p.name = t)).getLast? with
      | some p => Except.ok p
      | none => Except.error "Product Not Found" := by
  unfold find_prod_from_target
  rw [foldl_overwrite, Option.orElse_none]

/-- **C2** (counterexample): with two products both named `A`, the first
matching product is `prodA1`, yet resolution returns `prodA2` — the
claim that the *first* match is returned is false. -/
theorem find_prod_counterexample :
    ([prodA1, prodA2].filter (fun p => p.name = "A")).head? = some prodA1 ∧
    prodA1 ≠ prodA2 ∧
    find_prod_from_target [prodA1, prodA2] "A" ≠ Except.ok prodA1 ∧
    find_prod_from_target [prodA1, prodA2] "A" = Except.ok prodA2 := by
  decide

/-! ### C5, C6, C8: macro emission -/

theorem get_max_el_eq (p : Product) :
    get_max_el p = 1 + (p.elements.map (fun e => e.value)).sum := by
  suffices h : ∀ (l : List ElementRef) (a : Int),
      l.foldl (fun acc e => acc + e.value) a
        = a + (l.map (fun e => e.value)).sum by
    simpa [get_max_el] using h p.elements 1
  intro l
  induction l with
  | nil => simp
  | cons e l ih =>
    intro a
    rw [List.foldl_cons, ih, List.map_cons, List.sum_cons]
    ring

/-- **C5**: the emitted `CONFIG_MAX_ELEMENT_COUNT` value is `1` plus the
sum of `element.value` over the product's direct elements only; the
expression never consults the element catalog or any transitively
reached dependency. -/
theorem config_max_element_count (cid pid : Int) (t : String) (p : Product)
    (acc : String) :
    get_common_defs cid pid t p acc =
      acc ++ define_fmt "CONFIG_CID_ID" (toString cid)
          ++ define_fmt "CONFIG_PID_ID" (toString pid)
          ++ define_fmt "CONFIG_PRODUCT_NAME" ("\"" ++ strTake t 16 ++ "\"")
          ++ define_fmt "CONFIG_MAX_ELEMENT_COUNT"
              (toString (1 + (p.elements.map (fun e => e.value)).sum)) := by
  rw [get_common_defs, get_max_el_eq]

theorem get_el_macro_eq (els : List ElementDef) (acc : String) :
    get_el_macro els acc = acc ++ catalogDefines els := by
  induction els generalizing acc with
  | nil => rw [catalogDefines, String.append_empty]; rfl
  | cons e es ih =>
    rw [catalogDefines, ← String.append_assoc]
    exact ih (acc ++ define_fmt e.mdef (toString (mvalInt e.mvalue)))

/-- **C6**: the emitted text is the preamble/accumulator, then the four
product-level constants, then exactly one `#define <mdef> <int(mvalue)>`
line per entry of the full element catalog in declared order; boolean
macro values serialise as `1`/`0`, never as `true`/`false`. -/
theorem macro_text_structure (cid pid : Int) (t : String) (p : Product)
    (els : List ElementDef) (pre : String) :
    gen_macro_text cid pid t p els pre =
      pre ++ define_fmt "CONFIG_CID_ID" (toString cid)
          ++ define_fmt "CONFIG_PID_ID" (toString pid)
          ++ define_fmt "CONFIG_PRODUCT_NAME" ("\"" ++ strTake t 16 ++ "\"")
          ++ define_fmt "CONFIG_MAX_ELEMENT_COUNT" (toString (get_max_el p))
          ++ catalogDefines els ∧
    (∀ (e : ElementDef) (es : List ElementDef),
      catalogDefines (e :: es) =
        define_fmt e.mdef (toString (mvalInt e.mvalue)) ++ catalogDefines es) ∧
    (∀ bv : Bool, toString (mvalInt (.b bv)) = if bv then "1" else "0") := by
  refine ⟨?_, fun e es => rfl, fun bv => by cases bv <;> rfl⟩
  rw [gen_macro_text, get_el_macro_eq]
  rfl

/-- **C8**: the emitted `CONFIG_PRODUCT_NAME` is the string literal of
the first 16 characters of the target name; names of at most 16
characters pass through whole, longer names are silently truncated
(`ABCDEFGHIJKLMNOPQRST` yields `ABCDEFGHIJKLMNOP`). -/
theorem product_name_truncation (cid pid : Int) (t : String) (p : Product)
    (acc : String) :
    get_common_defs cid pid t p acc =
      acc ++ define_fmt "CONFIG_CID_ID" (toString cid)
          ++ define_fmt "CONFIG_PID_ID" (toString pid)
          ++ define_fmt "CONFIG_PRODUCT_NAME" ("\"" ++ strTake t 16 ++ "\"")
          ++ define_fmt "CONFIG_MAX_ELEMENT_COUNT" (toString (get_max_el p)) ∧
    (∀ s : String, s.length ≤ 16 → strTake s 16 = s) ∧
    strTake "ABCDEFGHIJKLMNOPQRST" 16 = "ABCDEFGHIJKLMNOP" := by
  refine ⟨rfl, ?_, by decide⟩
  intro s hs
  apply String.ext
  exact List.take_of_length_le hs

/-- Witness for C8: a short name is emitted whole and the 20-character
example truncates to its first 16 characters. -/
theorem product_name_truncation_witness :
    strTake "SHORT" 16 = "SHORT" ∧
    strTake "ABCDEFGHIJKLMNOPQRST" 16 = "ABCDEFGHIJKLMNOP" :=
  ⟨(product_name_truncation 0 0 "SHORT" prodA1 "").2.1 "SHORT" (by decide),
   (product_name_truncation 0 0 "x" prodA1 "").2.2⟩

/-! ### C9: construction-time filesystem effects -/

/-- **C9** (counterexample): the claim that CodeGen construction
creates or modifies no file is false — `__init__` ends with
`os.system(f'touch {self.genfile_h}')`, so its effect list is not
mutation-free and strictly extends the pure profile read. -/
theorem codegen_init_touches_file :
    noFileMutation (codegen_init_effects default_prod_profile genfile_h)
      = false ∧
    codegen_init_effects default_prod_profile genfile_h
      ≠ profile_load_effects default_prod_profile := by
  decide

/-- **C9** (amended): loading the profile document itself performs only
the file read, but `CodeGen.__init__` additionally touches (creates or
updates) the generated header `prod_common/common/codegen.h`, so the
construction step as a whole does modify a file. -/
theorem codegen_init_effects_eq (profile gh : String) :
    codegen_init_effects profile gh
      = profile_load_effects profile ++ [FsEff.touch gh] ∧
    noFileMutation (profile_load_effects profile) = true :=
  ⟨rfl, rfl⟩

/-! ### C3: missing element references are silently skipped -/

theorem scan_no_match (f : Nat) (st : St) (nm : String) (v : Int) :
    ∀ (n idx : Nat),
      (∀ j e, idx ≤ j → st.elements[j]? = some e → e.name ≠ nm) →
      resolve_dep_scan f st nm v idx n = some st := by
  intro n
  induction n with
  | zero => intro idx _; rw [resolve_dep_scan]
  | succ n ih =>
    intro idx h
    rw [resolve_dep_scan]
    cases hg : st.elements[idx]? with
    | none => rfl
    | some e =>
      have hne : ¬ e.name = nm := h idx e (Nat.le_refl idx) hg
      dsimp only
      rw [if_neg hne]
      exact ih (idx + 1) (fun j e' hj hg' => h j e' (by omega) hg')

/-- **C3**: visiting a reference whose name matches no catalog entry
raises no error and changes nothing: the expansion returns the state
completely unchanged (no dependency-map entry, no macro mutation, no
recursion). -/
theorem missing_element_skipped (f : Nat) (st : St) (nm : String) (v : Int)
    (h : ∀ e ∈ st.elements, e.name ≠ nm) :
    resolve_dep (f + 1) st nm v = some st := by
  rw [resolve_dep]
  refine scan_no_match f st nm v st.elements.length 0 ?_
  intro j e _ hg
  obtain ⟨hlt, rfl⟩ := List.getElem?_eq_some.mp hg
  exact h _ (List.getElem_mem hlt)

/-- Witness for C3: visiting the unknown name `ZZZ` leaves the diamond
state untouched. -/
theorem missing_element_skipped_witness :
    (∀ e ∈ diamondSt.elements, e.name ≠ "ZZZ") ∧
    resolve_dep 4 diamondSt "ZZZ" 7 = some diamondSt :=
  ⟨by decide, missing_element_skipped 3 diamondSt "ZZZ" 7 (by decide)⟩

/-! ### C10: the sdkconfig parser -/

theorem find?_map_replace_self (d : List (String × PyVal)) (k' : String)
    (v : PyVal) (hany : d.any (fun p => p.1 = k') = true) :
    (d.map (fun p => if p.1 = k' then (k', v) else p)).find?
        (fun p => p.1 = k') = some (k', v) := by
  induction d with
  | nil => simp at hany
  | cons p d ih =>
    simp only [List.map_cons]
    by_cases hp : p.1 = k'
    · rw [if_pos hp]
      exact List.find?_cons_of_pos _ (by simp)
    · rw [if_neg hp]
      have hd : d.any (fun q => q.1 = k') = true := by
        simp only [List.any_cons, Bool.or_eq_true] at hany
        rcases hany with h | h
        · exact absurd (of_decide_eq_true h) hp
        · exact h
      rw [List.find?_cons_of_neg _ (by simpa using hp)]
      exact ih hd

theorem find?_map_replace_other (d : List (String × PyVal)) (k' k : String)
    (v : PyVal) (hk : ¬ k = k') :
    (d.map (fun p => if p.1 = k' then (k', v) else p)).find?
        (fun p => p.1 = k) = d.find? (fun p => p.1 = k) := by
  induction d with
  | nil => rfl
  | cons p d ih =>
    simp only [List.map_cons]
    have hk' : k' ≠ k := fun h => hk h.symm
    by_cases hp : p.1 = k'
    · rw [if_pos hp,
        List.find?_cons_of_neg _ (by simp [hk']),
        List.find?_cons_of_neg _ (by simp [hp, hk'])]
      exact ih
    · rw [if_neg hp]
      by_cases hpk : p.1 = k
      · rw [List.find?_cons_of_pos _ (by simpa using hpk),
          List.find?_cons_of_pos _ (by simpa using hpk)]
      · rw [List.find?_cons_of_neg _ (by simpa using hpk),
          List.find?_cons_of_neg _ (by simpa using hpk)]
        exact ih

theorem dictGet_dictSet (d : List (String × PyVal)) (k' k : String)
    (v : PyVal) :
    dictGet (dictSet d k' v) k = if k = k' then some v else dictGet d k := by
  unfold dictSet
  by_cases hany : d.any (fun p => p.1 = k') = true
  · rw [if_pos hany]
    by_cases hk : k = k'
    · subst hk
      rw [if_pos rfl]
      unfold dictGet
      rw [find?_map_replace_self d k v hany]
      rfl
    · rw [if_neg hk]
      unfold dictGet
      rw [find?_map_replace_other d k' k v hk]
  · rw [if_neg hany]
    unfold dictGet
    rw [List.find?_append]
    by_cases hk : k = k'
    · subst hk
      have hnone : d.find? (fun p => p.1 = k) = none :=
        List.find?_eq_none.mpr
          (fun q hq hq' => hany (List.any_eq_true.mpr ⟨q, hq, hq'⟩))
      rw [if_pos rfl, hnone, Option.none_or,
        List.find?_cons_of_pos _ (by simp)]
      rfl
    · have hk' : k' ≠ k := fun h => hk h.symm
      have h1 : ([(k', v)]).find? (fun p => p.1 = k) = none := by
        rw [List.find?_cons_of_neg _ (by simp [hk'])]
        rfl
      rw [if_neg hk, h1, Option.or_none]

theorem lastParsedValue_cons_none (line : String) (rest : List String)
    (k : String) (hpl : parseLine line = none) :
    lastParsedValue (line :: rest) k = lastParsedValue rest k := by
  unfold lastParsedValue
  rw [List.filterMap_cons, hpl]

theorem lastParsedValue_cons_some (line : String) (rest : List String)
    (k k0 : String) (v0 : PyVal) (hpl : parseLine line = some (k0, v0)) :
    lastParsedValue (line :: rest) k =
      if k0 = k then (lastParsedValue rest k <|> some v0)
      else lastParsedValue rest k := by
  unfold lastParsedValue
  rw [List.filterMap_cons, hpl]
  dsimp only
  rw [List.filter_cons]
  by_cases hk : k0 = k
  · rw [if_pos (by simpa using hk), if_pos hk, getLast?_cons_orElse]
    cases ((rest.filterMap parseLine).filter (fun p => p.1 = k)).getLast? <;>
      rfl
  · rw [if_neg (by simpa using hk), if_neg hk]

theorem parse_foldl (lines : List String) (d : List (String × PyVal))
    (k : String) :
    dictGet
      (lines.foldl
        (fun d line =>
          match parseLine line with
          | none => d
          | some kv => dictSet d kv.1 kv.2) d) k
      = (lastParsedValue lines k <|> dictGet d k) := by
  induction lines generalizing d with
  | nil =>
    rw [List.foldl_nil]
    have h0 : lastParsedValue [] k = none := rfl
    rw [h0, Option.none_orElse]
  | cons line rest ih =>
    rw [List.foldl_cons]
    cases hpl : parseLine line with
    | none =>
      dsimp only
      rw [ih d, lastParsedValue_cons_none line rest k hpl]
    | some kv =>
      obtain ⟨k0, v0⟩ := kv
      dsimp only
      rw [ih (dictSet d k0 v0), dictGet_dictSet,
        lastParsedValue_cons_some line rest k k0 v0 hpl]
      by_cases hk : k0 = k
      · rw [if_pos hk, if_pos hk.symm]
        cases lastParsedValue rest k <;>
          cases dictGet d k <;> rfl
      · rw [if_neg hk, if_neg (fun h => hk h.symm)]

/-- **C10**: the parsed configuration maps each key to the value of the
last line that parses to that key, where a parsing line `KEY=value`
coerces the trimmed value (`y` to `True`, `n` to `False`, else the
parsed integer, else the string) and blank lines, `#` comments and
non-matching lines contribute no entry; a concrete run exercises every
coercion and the overwrite. -/
theorem parse_sdkconfig_correct :
    (∀ (lines : List String) (k : String),
      dictGet (parse_sdkconfig lines) k = lastParsedValue lines k) ∧
    parse_sdkconfig
        ["# note", "", "A=y", "B = n", "C=42", "D=hello world", "A=7"]
      = [("A", .i 7), ("B", .b false), ("C", .i 42),
         ("D", .s "hello world")] := by
  constructor
  · intro lines k
    have h := parse_foldl lines [] k
    unfold parse_sdkconfig
    rw [h]
    have h0 : dictGet [] k = none := rfl
    rw [h0, Option.orElse_none]
  · decide

/-! ### Agreement between the expansion and its instrumented twin -/

theorem list_agree_of (f : Nat)
    (hP : ∀ st nm v,
      resolve_dep f st nm v = (resolve_dep_tr f st nm v).map Prod.fst) :
    ∀ (ds : List String) (st : St),
      resolve_dep_list f st ds
        = (resolve_dep_list_tr f st ds).map Prod.fst := by
  intro ds
  induction ds with
  | nil => intro st; rw [resolve_dep_list, resolve_dep_list_tr]; rfl
  | cons d ds ih =>
    intro st
    rw [resolve_dep_list, resolve_dep_list_tr, hP st d 0]
    cases htr : resolve_dep_tr f st d 0 with
    | none => rfl
    | some r1 =>
      simp only [Option.map_some']
      rw [ih r1.1]
      cases h2 : resolve_dep_list_tr f r1.1 ds with
      | none => rfl
      | some r2 => rfl

theorem scan_agree_of (f : Nat)
    (hR : ∀ ds st,
      resolve_dep_list f st ds
        = (resolve_dep_list_tr f st ds).map Prod.fst) :
    ∀ (n : Nat) (st : St) (nm : String) (v : Int) (idx : Nat),
      resolve_dep_scan f st nm v idx n
        = (resolve_dep_scan_tr f st nm v idx n).map Prod.fst := by
  intro n
  induction n with
  | zero => intro st nm v idx; rw [resolve_dep_scan, resolve_dep_scan_tr]; rfl
  | succ n ih =>
    intro st nm v idx
    rw [resolve_dep_scan, resolve_dep_scan_tr]
    cases hg : st.elements[idx]? with
    | none => rfl
    | some e =>
      dsimp only
      by_cases hnm : e.name = nm
      · rw [if_pos hnm, if_pos hnm,
          hR e.deps ⟨st.elements.set idx (updVal e v),
                     setDep st.deps nm e.path⟩]
        cases h2 : resolve_dep_list_tr f
            ⟨st.elements.set idx (updVal e v),
             setDep st.deps nm e.path⟩ e.deps with
        | none => rfl
        | some r2 =>
          simp only [Option.map_some']
          rw [ih r2.1 nm v (idx + 1)]
          cases h3 : resolve_dep_scan_tr f r2.1 nm v (idx + 1) n with
          | none => rfl
          | some r3 => rfl
      · rw [if_neg hnm, if_neg hnm]
        exact ih st nm v (idx + 1)

theorem resolve_dep_agree : ∀ (f : Nat) (st : St) (nm : String) (v : Int),
    resolve_dep f st nm v = (resolve_dep_tr f st nm v).map Prod.fst := by
  intro f
  induction f with
  | zero => intro st nm v; rw [resolve_dep, resolve_dep_tr]; rfl
  | succ f ih =>
    intro st nm v
    rw [resolve_dep, resolve_dep_tr]
    exact scan_agree_of f (list_agree_of f ih) st.elements.length st nm v 0

theorem resolve_dep_list_agree (f : Nat) (ds : List String) (st : St) :
    resolve_dep_list f st ds = (resolve_dep_list_tr f st ds).map Prod.fst :=
  list_agree_of f (fun st' nm v => resolve_dep_agree f st' nm v) ds st

theorem resolve_el_deps_agree (f : Nat) :
    ∀ (refs : List ElementRef) (st : St),
      resolve_el_deps f st refs
        = (resolve_el_deps_tr f st refs).map Prod.fst := by
  intro refs
  induction refs with
  | nil => intro st; rfl
  | cons r rs ih =>
    intro st
    rw [resolve_el_deps, resolve_el_deps_tr,
      resolve_dep_agree f st r.name r.value]
    cases htr : resolve_dep_tr f st r.name r.value with
    | none => rfl
    | some r1 =>
      simp only [Option.map_some']
      rw [ih r1.1]
      cases h2 : resolve_el_deps_tr f r1.1 rs with
      | none => rfl
      | some r2 => rfl

/-! ### The write log determines the catalog after expansion -/

theorem applyLog_cons (cur : MVal) (j : Nat) (w : Int)
    (l : List (Nat × Int)) (i : Nat) :
    applyLog cur ((j, w) :: l) i
      = applyLog (if j = i then applyWrite cur w else cur) l i := rfl

theorem applyLog_append (cur : MVal) (l1 l2 : List (Nat × Int)) (i : Nat) :
    applyLog cur (l1 ++ l2) i = applyLog (applyLog cur l1 i) l2 i := by
  unfold applyLog
  rw [List.foldl_append]

theorem logUpd_append (l1 l2 : List (Nat × Int)) (i : Nat) (e : ElementDef) :
    logUpd (l1 ++ l2) i e = logUpd l2 i (logUpd l1 i e) := by
  unfold logUpd
  dsimp only
  rw [applyLog_append]

theorem list_writes_of (f : Nat)
    (hP : ∀ st nm v r, resolve_dep_tr f st nm v = some r →
      ∀ i, r.1.elements[i]? = (st.elements[i]?).map (logUpd r.2 i)) :
    ∀ (ds : List String) (st : St) (r : St × List (Nat × Int)),
      resolve_dep_list_tr f st ds = some r →
      ∀ i, r.1.elements[i]? = (st.elements[i]?).map (logUpd r.2 i) := by
  intro ds
  induction ds with
  | nil =>
    intro st r h i
    rw [resolve_dep_list_tr] at h
    cases h
    cases st.elements[i]? <;> rfl
  | cons d ds ih =>
    intro st r h i
    rw [resolve_dep_list_tr] at h
    cases h1 : resolve_dep_tr f st d 0 with
    | none => rw [h1] at h; exact absurd h (by simp)
    | some r1 =>
      rw [h1] at h
      dsimp only at h
      cases h2 : resolve_dep_list_tr f r1.1 ds with
      | none => rw [h2] at h; exact absurd h (by simp)
      | some r2 =>
        rw [h2] at h
        dsimp only at h
        cases h
        rw [ih r1.1 r2 h2 i, hP st d 0 r1 h1 i]
        cases st.elements[i]? with
        | none => rfl
        | some e =>
          dsimp only [Option.map_some']
          rw [logUpd_append]

theorem scan_writes_of (f : Nat)
    (hR : ∀ ds st r, resolve_dep_list_tr f st ds = some r →
      ∀ i, r.1.elements[i]? = (st.elements[i]?).map (logUpd r.2 i)) :
    ∀ (n : Nat) (st : St) (nm : String) (v : Int) (idx : Nat)
      (r : St × List (Nat × Int)),
      resolve_dep_scan_tr f st nm v idx n = some r →
      ∀ i, r.1.elements[i]? = (st.elements[i]?).map (logUpd r.2 i) := by
  intro n
  induction n with
  | zero =>
    intro st nm v idx r h i
    rw [resolve_dep_scan_tr] at h
    cases h
    cases st.elements[i]? <;> rfl
  | succ n ih =>
    intro st nm v idx r h i
    rw [resolve_dep_scan_tr] at h
    cases hg : st.elements[idx]? with
    | none =>
      rw [hg] at h
      dsimp only at h
      cases h
      cases st.elements[i]? <;> rfl
    | some e =>
      rw [hg] at h
      dsimp only at h
      by_cases hnm : e.name = nm
      · rw [if_pos hnm] at h
        cases h2 : resolve_dep_list_tr f
            ⟨st.elements.set idx (updVal e v),
             setDep st.deps nm e.path⟩ e.deps with
        | none => rw [h2] at h; exact absurd h (by simp)
        | some r2 =>
          rw [h2] at h
          dsimp only at h
          cases h3 : resolve_dep_scan_tr f r2.1 nm v (idx + 1) n with
          | none => rw [h3] at h; exact absurd h (by simp)
          | some r3 =>
            rw [h3] at h
            dsimp only at h
            cases h
            rw [ih r2.1 nm v (idx + 1) r3 h3 i, hR e.deps _ r2 h2 i]
            dsimp only
            rw [List.getElem?_set]
            have hidx : idx < st.elements.length :=
              (List.getElem?_eq_some.mp hg).1
            by_cases hii : idx = i
            · subst hii
              rw [if_pos rfl, if_pos hidx, hg]
              dsimp only [Option.map_some']
              have hstep : logUpd ((idx, v) :: (r2.2 ++ r3.2)) idx e
                  = logUpd (r2.2 ++ r3.2) idx (updVal e v) := by
                unfold logUpd updVal
                dsimp only
                rw [applyLog_cons, if_pos rfl]
              rw [hstep, logUpd_append]
            · rw [if_neg hii]
              cases hsi : st.elements[i]? with
              | none => rfl
              | some e0 =>
                dsimp only [Option.map_some']
                have hstep : logUpd ((idx, v) :: (r2.2 ++ r3.2)) i e0
                    = logUpd (r2.2 ++ r3.2) i e0 := by
                  unfold logUpd
                  rw [applyLog_cons, if_neg hii]
                rw [hstep, logUpd_append]
      · rw [if_neg hnm] at h
        exact ih st nm v (idx + 1) r h i

theorem resolve_dep_writes : ∀ (f : Nat) (st : St) (nm : String) (v : Int)
    (r : St × List (Nat × Int)),
    resolve_dep_tr f st nm v = some r →
    ∀ i, r.1.elements[i]? = (st.elements[i]?).map (logUpd r.2 i) := by
  intro f
  induction f with
  | zero =>
    intro st nm v r h i
    rw [resolve_dep_tr] at h
    exact absurd h (by simp)
  | succ f ih =>
    intro st nm v r h i
    rw [resolve_dep_tr] at h
    exact scan_writes_of f (list_writes_of f ih)
      st.elements.length st nm v 0 r h i

theorem resolve_el_deps_writes (f : Nat) :
    ∀ (refs : List ElementRef) (st : St) (r : St × List (Nat × Int)),
      resolve_el_deps_tr f st refs = some r →
      ∀ i, r.1.elements[i]? = (st.elements[i]?).map (logUpd r.2 i) := by
  intro refs
  induction refs with
  | nil =>
    intro st r h i
    cases h
    cases st.elements[i]? <;> rfl
  | cons rf rs ih =>
    intro st r h i
    rw [resolve_el_deps_tr] at h
    cases h1 : resolve_dep_tr f st rf.name rf.value with
    | none => rw [h1] at h; exact absurd h (by simp)
    | some r1 =>
      rw [h1] at h
      dsimp only at h
      cases h2 : resolve_el_deps_tr f r1.1 rs with
      | none => rw [h2] at h; exact absurd h (by simp)
      | some r2 =>
        rw [h2] at h
        dsimp only at h
        cases h
        rw [ih r1.1 r2 h2 i, resolve_dep_writes f st rf.name rf.value r1 h1 i]
        cases st.elements[i]? with
        | none => rfl
        | some e =>
          dsimp only [Option.map_some']
          rw [logUpd_append]

/-! ### Shape preservation -/

theorem shape_eq_of_writes (st stX : St) (log : List (Nat × Int))
    (h : ∀ i, stX.elements[i]? = (st.elements[i]?).map (logUpd log i)) :
    shape stX = shape st := by
  unfold shape
  apply List.ext_getElem?
  intro j
  rw [List.getElem?_map, List.getElem?_map, h j]
  cases st.elements[j]? <;> rfl

theorem shape_resolve_dep (f : Nat) (st : St) (nm : String) (v : Int)
    (stX : St) (h : resolve_dep f st nm v = some stX) :
    shape stX = shape st := by
  rw [resolve_dep_agree] at h
  cases htr : resolve_dep_tr f st nm v with
  | none => rw [htr] at h; exact absurd h (by simp)
  | some r =>
    rw [htr] at h
    simp only [Option.map_some', Option.some_inj] at h
    subst h
    exact shape_eq_of_writes st r.1 r.2 (resolve_dep_writes f st nm v r htr)

theorem shape_resolve_dep_list (f : Nat) (ds : List String) (st stX : St)
    (h : resolve_dep_list f st ds = some stX) :
    shape stX = shape st := by
  rw [resolve_dep_list_agree] at h
  cases htr : resolve_dep_list_tr f st ds with
  | none => rw [htr] at h; exact absurd h (by simp)
  | some r =>
    rw [htr] at h
    simp only [Option.map_some', Option.some_inj] at h
    subst h
    exact shape_eq_of_writes st r.1 r.2
      (list_writes_of f (fun st' nm v r' h' i =>
        resolve_dep_writes f st' nm v r' h' i) ds st r htr)

theorem name_at_of_shape (st1 st2 : St) (h : shape st2 = shape st1)
    (j : Nat) :
    (st2.elements[j]?).map ElementDef.name
      = (st1.elements[j]?).map ElementDef.name := by
  have hj := congrArg (fun l => l[j]?) h
  simp only [shape, List.getElem?_map] at hj
  cases h2 : st2.elements[j]? with
  | none =>
    rw [h2] at hj
    cases h1 : st1.elements[j]? with
    | none => rfl
    | some e1 => rw [h1] at hj; exact absurd hj (by simp)
  | some e2 =>
    rw [h2] at hj
    cases h1 : st1.elements[j]? with
    | none => rw [h1] at hj; exact absurd hj (by simp)
    | some e1 =>
      rw [h1] at hj
      simp only [Option.map_some', Option.some_inj] at hj
      have : e2.name = e1.name := congrArg (fun q => q.1) hj
      simp [this]

/-! ### C7: last write wins -/

theorem applyLog_int (v0 : Int) (log : List (Nat × Int)) (i : Nat) :
    applyLog (.i v0) log i = .i ((lastWriteTo log i).getD v0) := by
  induction log generalizing v0 with
  | nil => rfl
  | cons p rest ih =>
    obtain ⟨j, w⟩ := p
    rw [applyLog_cons]
    unfold lastWriteTo
    rw [List.filter_cons]
    by_cases hj : j = i
    · rw [if_pos hj]
      have happ : applyWrite (.i v0) w = .i w := rfl
      rw [happ, ih w, if_pos (by simpa using hj), getLast?_cons_orElse]
      unfold lastWriteTo
      cases ((rest.filter (fun p => p.1 = i)).getLast?) <;> rfl
    · rw [if_neg hj, if_neg (by simpa using hj), ih v0]
      rfl

/-- **C7**: when the expansion of a product reaches an integer-typed
element more than once with different values, its final macro value is
the one supplied by the chronologically last write of the fixed
visitation order (product elements in declared order, depth first into
each matched entry's `deps`, no visited-set); the instrumented twin
`resolve_el_deps_tr` materialises exactly that order in its write log,
and agrees with `resolve_el_deps` on the resulting state. -/
theorem last_write_wins (f : Nat) (st : St) (refs : List ElementRef)
    (stX : St) (log : List (Nat × Int)) (i : Nat) (e : ElementDef)
    (v0 w : Int)
    (ht : resolve_el_deps_tr f st refs = some (stX, log))
    (hi : st.elements[i]? = some e)
    (hval : e.mvalue = .i v0)
    (hw : lastWriteTo log i = some w) :
    resolve_el_deps f st refs = some stX ∧
    stX.elements[i]? = some { e with mvalue := .i w } := by
  constructor
  · rw [resolve_el_deps_agree, ht]
    rfl
  · have h := resolve_el_deps_writes f refs st (stX, log) ht i
    rw [hi] at h
    dsimp only [Option.map_some'] at h
    rw [h]
    have : logUpd log i e = { e with mvalue := .i w } := by
      unfold logUpd
      rw [hval, applyLog_int, hw]
      rfl
    rw [this]

/-- Witness for C7: in the diamond example, `X` (catalog index 1,
integer-typed) is written twice — with `0` via the dependency of `A`
and then with `5` as a direct element — and ends at the last value
`5`. -/
theorem last_write_wins_witness :
    (diamondLog.filter (fun p => p.1 = 1)).length = 2 ∧
    lastWriteTo diamondLog 1 = some 5 ∧
    resolve_el_deps 4 diamondSt [⟨"A", 1⟩, ⟨"X", 5⟩] = some diamondStOut ∧
    diamondStOut.elements[1]? = some { elemX with mvalue := .i 5 } := by
  have ht : resolve_el_deps_tr 4 diamondSt [⟨"A", 1⟩, ⟨"X", 5⟩]
      = some (diamondStOut, diamondLog) := by
    simp +decide [resolve_el_deps_tr, resolve_dep_tr, resolve_dep_scan_tr,
      resolve_dep_list_tr, diamondSt, diamondStOut, diamondLog, elemA,
      elemX, updVal, applyWrite, setDep]
  have h := last_write_wins 4 diamondSt [⟨"A", 1⟩, ⟨"X", 5⟩]
    diamondStOut diamondLog 1 elemX 0 5 ht (by decide) (by decide)
    (by decide)
  exact ⟨by decide, by decide, h.1, h.2⟩

/-! ### C1: semantics of one visit -/

theorem scan_skip (f : Nat) (st : St) (nm : String) (v : Int) :
    ∀ (k idx m : Nat), idx + k + m ≤ st.elements.length →
      (∀ j, j < k → (st.elements[idx + j]?).map ElementDef.name ≠ some nm) →
      resolve_dep_scan f st nm v idx (k + m)
        = resolve_dep_scan f st nm v (idx + k) m := by
  intro k
  induction k with
  | zero => intro idx m _ _; rw [Nat.zero_add, Nat.add_zero]
  | succ k ih =>
    intro idx m hlen hno
    have hidx : idx < st.elements.length := by omega
    have hg : st.elements[idx]? = some st.elements[idx] :=
      List.getElem?_eq_getElem hidx
    have hne : ¬ (st.elements[idx]).name = nm := by
      have h0 := hno 0 (Nat.succ_pos k)
      rw [Nat.add_zero, hg] at h0
      simpa using h0
    have harith : k + 1 + m = (k + m) + 1 := by omega
    rw [harith, resolve_dep_scan, hg]
    dsimp only
    rw [if_neg hne]
    have harith2 : idx + (k + 1) = (idx + 1) + k := by omega
    rw [harith2]
    refine ih (idx + 1) m (by omega) ?_
    intro j hj
    have h1 := hno (j + 1) (by omega)
    rwa [show idx + (j + 1) = idx + 1 + j by omega] at h1

/-- The step semantics of a visit whose name matches a unique catalog
entry (shared between the claim theorems that need it). -/
theorem resolve_dep_unique_match (f : Nat) (st : St) (nm : String)
    (value : Int) (i : Nat) (e : ElementDef)
    (hi : st.elements[i]? = some e) (hname : e.name = nm)
    (huniq : ∀ j, j < st.elements.length → j ≠ i →
      (st.elements[j]?).map ElementDef.name ≠ some nm) :
    resolve_dep (f + 1) st nm value =
      resolve_dep_list f
        ⟨st.elements.set i (updVal e value),
         setDep st.deps nm e.path⟩ e.deps := by
  have hilen : i < st.elements.length := (List.getElem?_eq_some.mp hi).1
  rw [resolve_dep]
  have hsplit : st.elements.length = i + (st.elements.length - i) := by
    omega
  rw [hsplit,
    scan_skip f st nm value i 0 (st.elements.length - i) (by omega)
      (fun j hj => by
        have h1 := huniq j (by omega) (by omega)
        simpa using h1),
    Nat.zero_add]
  have h2 : st.elements.length - i = (st.elements.length - i - 1) + 1 := by
    omega
  rw [h2, resolve_dep_scan, hi]
  dsimp only
  rw [if_pos hname]
  cases hl : resolve_dep_list f
      ⟨st.elements.set i (updVal e value),
       setDep st.deps nm e.path⟩ e.deps with
  | none => rfl
  | some st2 =>
    dsimp only
    refine scan_no_match f st2 nm value (st.elements.length - i - 1)
      (i + 1) ?_
    intro j e' hj hg'
    have hshape := shape_resolve_dep_list f e.deps _ st2 hl
    have hnm2 := name_at_of_shape _ st2 hshape j
    have hji : ¬ i = j := by omega
    have hstU : (⟨st.elements.set i (updVal e value),
        setDep st.deps nm e.path⟩ : St).elements[j]? = st.elements[j]? := by
      dsimp only
      rw [List.getElem?_set, if_neg hji]
    rw [hg', hstU] at hnm2
    simp only [Option.map_some'] at hnm2
    have hlen2 : st2.elements.length = st.elements.length := by
      have hc := congrArg List.length hshape
      simpa [shape, List.length_map, List.length_set] using hc
    have hj_len : j < st.elements.length := by
      have hb := (List.getElem?_eq_some.mp hg').1
      omega
    have hu := huniq j hj_len (by omega)
    rw [← hnm2] at hu
    intro hcontra
    exact hu (by rw [hcontra])

/-- **C1**: a visit of a reference `nm` that matches the unique catalog
entry `e` records the dependency path, overwrites the macro value — to
`true` when the existing value is boolean-typed, unconditionally, and to
the caller-supplied integer otherwise — and then continues exactly as
the recursive visits of `e.deps`, each sub-dependency being visited with
value `0` (second conjunct). -/
theorem visit_semantics (f : Nat) (st : St) (nm : String) (value : Int)
    (i : Nat) (e : ElementDef)
    (hi : st.elements[i]? = some e) (hname : e.name = nm)
    (huniq : ∀ j, j < st.elements.length → j ≠ i →
      (st.elements[j]?).map ElementDef.name ≠ some nm) :
    resolve_dep (f + 1) st nm value =
      resolve_dep_list f
        ⟨st.elements.set i
          { e with mvalue :=
              match e.mvalue with
              | .b _ => .b true
              | .i _ => .i value },
         setDep st.deps nm e.path⟩ e.deps ∧
    (∀ (g : Nat) (stA : St) (d : String) (ds : List String),
      resolve_dep_list g stA (d :: ds) =
        match resolve_dep g stA d 0 with
        | none => none
        | some stB => resolve_dep_list g stB ds) := by
  constructor
  · have hupd : ({ e with mvalue :=
        match e.mvalue with
        | .b _ => .b true
        | .i _ => .i value } : ElementDef) = updVal e value := rfl
    rw [hupd]
    exact resolve_dep_unique_match f st nm value i e hi hname huniq
  · intro g stA d ds
    rw [resolve_dep_list]

/-- Witness for C1: in the diamond state the unique entry named `X`
sits at index 1 and a visit with value `9` rewrites its integer macro
value to `9` before recursing into its (empty) dependency list. -/
theorem visit_semantics_witness :
    diamondSt.elements[1]? = some elemX ∧
    resolve_dep 3 diamondSt "X" 9 =
      resolve_dep_list 2
        ⟨diamondSt.elements.set 1 { elemX with mvalue := .i 9 },
         setDep diamondSt.deps "X" elemX.path⟩ elemX.deps := by
  have h := visit_semantics 2 diamondSt "X" 9 1 elemX (by decide) (by decide)
    (by decide)
  exact ⟨by decide, h.1⟩

/-! ### C4: termination under acyclicity, divergence on a cycle -/

theorem RankOK_of_shape (rk : String → Nat) (st1 st2 : St)
    (h : shape st2 = shape st1) (hok : RankOK rk st1.elements) :
    RankOK rk st2.elements := by
  intro e2 he2 d hd
  obtain ⟨j, hj⟩ := List.getElem?_of_mem he2
  have hc := congrArg (fun l => l[j]?) h
  simp only [shape, List.getElem?_map] at hc
  rw [hj] at hc
  simp only [Option.map_some'] at hc
  cases h1 : st1.elements[j]? with
  | none => rw [h1] at hc; exact absurd hc (by simp)
  | some e1 =>
    rw [h1] at hc
    simp only [Option.map_some', Option.some_inj] at hc
    have hname : e2.name = e1.name := congrArg (fun q => q.1) hc
    have hdeps : e2.deps = e1.deps := congrArg (fun q => q.2.2.2) hc
    have he1 : e1 ∈ st1.elements := by
      obtain ⟨hlt, rfl⟩ := List.getElem?_eq_some.mp h1
      exact List.getElem_mem hlt
    rw [hname]
    exact hok e1 he1 d (hdeps ▸ hd)

theorem shape_set_updVal (st : St) (i : Nat) (e : ElementDef) (v : Int)
    (hi : st.elements[i]? = some e) (dd : List (String × String)) :
    shape ⟨st.elements.set i (updVal e v), dd⟩ = shape st := by
  unfold shape
  apply List.ext_getElem?
  intro j
  dsimp only
  rw [List.getElem?_map, List.getElem?_map, List.getElem?_set]
  by_cases hij : i = j
  · subst hij
    rw [if_pos rfl, if_pos (List.getElem?_eq_some.mp hi).1, hi]
    rfl
  · rw [if_neg hij]

theorem rank_term (rk : String → Nat) :
    ∀ (f : Nat) (st : St) (nm : String) (v : Int),
      RankOK rk st.elements → rk nm + 1 ≤ f →
      ∃ stX, resolve_dep f st nm v = some stX := by
  intro f
  induction f using Nat.strong_induction_on with
  | _ f ihf =>
    match f with
    | 0 => intro st nm v _ hf; omega
    | f + 1 =>
      intro st nm v hok hf
      rw [resolve_dep]
      have hscan : ∀ (n : Nat) (stS : St) (idx : Nat),
          RankOK rk stS.elements →
          ∃ stX, resolve_dep_scan f stS nm v idx n = some stX := by
        intro n
        induction n with
        | zero => intro stS idx _; exact ⟨stS, by rw [resolve_dep_scan]⟩
        | succ n ihn =>
          intro stS idx hokS
          rw [resolve_dep_scan]
          cases hg : stS.elements[idx]? with
          | none => exact ⟨stS, rfl⟩
          | some e =>
            dsimp only
            by_cases hnm : e.name = nm
            · rw [if_pos hnm]
              have he : e ∈ stS.elements := by
                obtain ⟨hlt, rfl⟩ := List.getElem?_eq_some.mp hg
                exact List.getElem_mem hlt
              have hdepbound : ∀ d ∈ e.deps, rk d + 1 ≤ f := by
                intro d hd
                have hlt := hokS e he d hd
                rw [hnm] at hlt
                omega
              have hok1 : RankOK rk
                  ((⟨stS.elements.set idx (updVal e v),
                    setDep stS.deps nm e.path⟩ : St)).elements :=
                RankOK_of_shape rk stS _
                  (shape_set_updVal stS idx e v hg _) hokS
              have hlist : ∀ (ds : List String) (stL : St),
                  RankOK rk stL.elements → (∀ d ∈ ds, rk d + 1 ≤ f) →
                  ∃ stY, resolve_dep_list f stL ds = some stY ∧
                    RankOK rk stY.elements := by
                intro ds
                induction ds with
                | nil =>
                  intro stL hokL _
                  exact ⟨stL, by rw [resolve_dep_list], hokL⟩
                | cons d ds ihds =>
                  intro stL hokL hb
                  obtain ⟨stV, hV⟩ := ihf f (by omega) stL d 0 hokL
                    (hb d (List.mem_cons_self d ds))
                  have hokV : RankOK rk stV.elements :=
                    RankOK_of_shape rk stL stV
                      (shape_resolve_dep f stL d 0 stV hV) hokL
                  obtain ⟨stY, hY, hokY⟩ := ihds stV hokV
                    (fun dq hdq => hb dq (List.mem_cons_of_mem d hdq))
                  refine ⟨stY, ?_, hokY⟩
                  rw [resolve_dep_list, hV]
                  exact hY
              obtain ⟨st2, h2, hok2⟩ := hlist e.deps _ hok1 hdepbound
              rw [h2]
              exact ihn st2 (idx + 1) hok2
            · rw [if_neg hnm]
              exact ihn stS (idx + 1) hokS
      exact hscan st.elements.length st 0 hok

theorem cyclic_diverges :
    ∀ (f : Nat) (m : MVal) (d : List (String × String)) (v : Int),
      resolve_dep f (cyclicStM m d) "X" v = none := by
  intro f
  induction f with
  | zero => intro m d v; rw [resolve_dep]
  | succ f ih =>
    intro m d v
    have huqq : ∀ j, j < (cyclicStM m d).elements.length → j ≠ 0 →
        ((cyclicStM m d).elements[j]?).map ElementDef.name ≠ some "X" := by
      intro j hj hij
      exfalso
      apply hij
      have hlen : (cyclicStM m d).elements.length = 1 := rfl
      omega
    have hstep := resolve_dep_unique_match f (cyclicStM m d) "X" v 0
      ⟨"X", "p/X", "CONFIG_X", m, ["X"]⟩ rfl rfl huqq
    rw [hstep, resolve_dep_list]
    show (match resolve_dep f
        (cyclicStM (applyWrite m v) (setDep d "X" "p/X")) "X" 0 with
      | none => none
      | some stB => resolve_dep_list f stB ([] : List String)) = none
    rw [ih (applyWrite m v) (setDep d "X" "p/X") 0]

theorem le_foldr_max (l : List Nat) : ∀ x ∈ l, x ≤ l.foldr max 0 := by
  induction l with
  | nil => intro x hx; cases hx
  | cons a l ih =>
    intro x hx
    rcases List.mem_cons.mp hx with rfl | hx
    · exact Nat.le_max_left _ _
    · exact Nat.le_trans (ih x hx) (Nat.le_max_right _ _)

/-- **C4**: when the element dependency graph is acyclic — witnessed by
a rank function that strictly decreases along every dependency edge —
the expansion of any product's element list terminates (some finite
fuel suffices); and the recursion really carries no cycle guard: on the
self-referential catalog `cyclicSt` the visit exhausts every fuel bound,
so termination holds only under the acyclicity precondition. -/
theorem expansion_terminates (rk : String → Nat) (st : St) (p : Product)
    (hacyc : RankOK rk st.elements) :
    (∃ f, (resolve_el_deps f st p.elements).isSome) ∧
    (∀ f v, resolve_dep f cyclicSt "X" v = none) := by
  constructor
  · refine ⟨(p.elements.map (fun r => rk r.name)).foldr max 0 + 1, ?_⟩
    have hbound : ∀ r ∈ p.elements,
        rk r.name + 1 ≤ (p.elements.map (fun r => rk r.name)).foldr max 0 + 1 := by
      intro r hr
      have hle := le_foldr_max (p.elements.map (fun r => rk r.name))
        (rk r.name) (List.mem_map_of_mem _ hr)
      omega
    have main : ∀ (refs : List ElementRef) (stS : St),
        RankOK rk stS.elements →
        (∀ r ∈ refs,
          rk r.name + 1 ≤ (p.elements.map (fun r => rk r.name)).foldr max 0 + 1) →
        (resolve_el_deps
          ((p.elements.map (fun r => rk r.name)).foldr max 0 + 1) stS refs).isSome := by
      intro refs
      induction refs with
      | nil => intro stS _ _; rw [resolve_el_deps]; rfl
      | cons r rs ih =>
        intro stS hok hb
        obtain ⟨stV, hV⟩ := rank_term rk _ stS r.name r.value hok
          (hb r (List.mem_cons_self r rs))
        rw [resolve_el_deps, hV]
        exact ih stV
          (RankOK_of_shape rk stS stV
            (shape_resolve_dep _ stS r.name r.value stV hV) hok)
          (fun rq hrq => hb rq (List.mem_cons_of_mem r hrq))
    exact main p.elements st hacyc hbound
  · intro f v
    exact cyclic_diverges f (.i 0) [] v

/-- Witness for C4: the two-element acyclic catalog with rank function
`rankW` satisfies the precondition and its product expansion
terminates. -/
theorem expansion_terminates_witness :
    RankOK rankW acyclicSt.elements ∧
    (∃ f, (resolve_el_deps f acyclicSt prodW.elements).isSome) := by
  have h := expansion_terminates rankW acyclicSt prodW (by decide)
  exact ⟨by decide, h.1⟩

end MeshX
